import Mathlib

/-
Verification development for the shortint-engine core of a TFHE library.

The Rust sources are shallowly embedded: unsigned machine integers become
naturals with explicit reduction modulo 2 ^ w, slices become lists, the
flat coefficient buffers of GLWE ciphertexts become index functions, and
functions that abort on violated preconditions return Option.  Server-side
operations whose bodies are not part of the analysed sources are modelled
from the specification and say so in their doc comments.
-/

namespace Tfhe

/-! ## Numeric kernel (core_crypto/algorithms/slice_algorithms.rs) -/

/-- Semantics of wrapping_add on a w-bit unsigned integer. -/
def wrapAdd (w a b : ℕ) : ℕ := (a + b) % 2 ^ w

/-- Semantics of wrapping_mul on a w-bit unsigned integer. -/
def wrapMul (w a b : ℕ) : ℕ := (a * b) % 2 ^ w

/-- Semantics of wrapping_sub on a w-bit unsigned integer. -/
def wrapSub (w a b : ℕ) : ℕ := (a % 2 ^ w + (2 ^ w - b % 2 ^ w)) % 2 ^ w

/-- Semantics of wrapping_neg on a w-bit unsigned integer. -/
def wrapNeg (w x : ℕ) : ℕ := (2 ^ w - x % 2 ^ w) % 2 ^ w

/-- slice_wrapping_dot_product: asserts equal lengths (modelled as none on
mismatch, the abort), then folds acc.wrapping_add(l.wrapping_mul(r)) over the
zipped slices starting from zero. -/
def slice_wrapping_dot_product (w : ℕ) (lhs rhs : List ℕ) : Option ℕ :=
  if lhs.length = rhs.length then
    some ((lhs.zip rhs).foldl (fun acc p => wrapAdd w acc (wrapMul w p.1 p.2)) 0)
  else none

/-- slice_wrapping_add: asserts lhs/rhs lengths equal and output length equal
to lhs, then writes the element-wise wrapping sum into output. -/
def slice_wrapping_add (w : ℕ) (output lhs rhs : List ℕ) : Option (List ℕ) :=
  if lhs.length = rhs.length then
    if output.length = lhs.length then some (List.zipWith (wrapAdd w) lhs rhs)
    else none
  else none

/-- slice_wrapping_add_assign: asserts equal lengths, then adds rhs into lhs
element-wise with wraparound. -/
def slice_wrapping_add_assign (w : ℕ) (lhs rhs : List ℕ) : Option (List ℕ) :=
  if lhs.length = rhs.length then some (List.zipWith (wrapAdd w) lhs rhs) else none

/-- slice_wrapping_sub: asserts lhs/rhs lengths equal and output length equal
to lhs, then writes the element-wise wrapping difference into output. -/
def slice_wrapping_sub (w : ℕ) (output lhs rhs : List ℕ) : Option (List ℕ) :=
  if lhs.length = rhs.length then
    if output.length = lhs.length then some (List.zipWith (wrapSub w) lhs rhs)
    else none
  else none

/-- slice_wrapping_sub_assign: asserts equal lengths, then subtracts rhs from
lhs element-wise with wraparound. -/
def slice_wrapping_sub_assign (w : ℕ) (lhs rhs : List ℕ) : Option (List ℕ) :=
  if lhs.length = rhs.length then some (List.zipWith (wrapSub w) lhs rhs) else none

/-- slice_wrapping_add_scalar_mul_assign: asserts equal lengths, then performs
lhs[i] <- lhs[i] + rhs[i] * scalar with wraparound. -/
def slice_wrapping_add_scalar_mul_assign (w : ℕ) (lhs rhs : List ℕ) (scalar : ℕ) :
    Option (List ℕ) :=
  if lhs.length = rhs.length then
    some (List.zipWith (fun l r => wrapAdd w l (wrapMul w r scalar)) lhs rhs)
  else none

/-- slice_wrapping_sub_scalar_mul_assign: asserts equal lengths, then performs
lhs[i] <- lhs[i] - rhs[i] * scalar with wraparound. -/
def slice_wrapping_sub_scalar_mul_assign (w : ℕ) (lhs rhs : List ℕ) (scalar : ℕ) :
    Option (List ℕ) :=
  if lhs.length = rhs.length then
    some (List.zipWith (fun l r => wrapSub w l (wrapMul w r scalar)) lhs rhs)
  else none

/-- slice_wrapping_opposite_assign_custom_mod: for each element x the source
computes half_q + 1 wrapping_sub (x wrapping_sub (half_q + 1)), with
half_q = modulus / 2, all on the w-bit integers. -/
def slice_wrapping_opposite_assign_custom_mod (w : ℕ) (slice : List ℕ) (modulus : ℕ) :
    List ℕ :=
  slice.map (fun x =>
    let half_q := modulus / 2
    wrapSub w (wrapAdd w half_q 1) (wrapSub w x (wrapAdd w half_q 1)))

/-! ## Client side (shortint/engine/client_side.rs) -/

/-- Parameter record: only the fields the analysed functions read. -/
structure Parameters where
  message_modulus : ℕ
  carry_modulus : ℕ
deriving DecidableEq

/-- Delta used by encrypt_inner_ct and the decrypt functions:
(1u64 << 63) / (message_modulus * carry_modulus). -/
def Parameters.delta (p : Parameters) : ℕ :=
  2 ^ 63 / (p.message_modulus * p.carry_modulus)

/-- Shortint ciphertext as produced by the client: ct holds the noiseless
encoded plaintext carried by the LWE body (the sampled encryption noise is
modelled separately and added back at decryption time, which is how
decrypt_lwe_ciphertext behaves). -/
structure CiphertextBase where
  ct : ℕ
  degree : ℕ
  message_modulus : ℕ
  carry_modulus : ℕ
deriving DecidableEq

/-- encrypt_inner_ct: m is reduced modulo message_modulus then encoded as
m * delta on a u64. -/
def encrypt_inner_ct (p : Parameters) (message message_modulus : ℕ) : ℕ :=
  message % message_modulus * p.delta % 2 ^ 64

/-- encrypt_with_message_modulus: encodes via encrypt_inner_ct, sets
degree = message_modulus - 1 and carry_modulus =
(parameters product) / message_modulus. -/
def encrypt_with_message_modulus (p : Parameters) (message message_modulus : ℕ) :
    CiphertextBase :=
  { ct := encrypt_inner_ct p message message_modulus
    degree := message_modulus - 1
    message_modulus := message_modulus
    carry_modulus := p.message_modulus * p.carry_modulus / message_modulus }

/-- encrypt: encrypt_with_message_modulus at the parameter message modulus. -/
def encrypt (p : Parameters) (message : ℕ) : CiphertextBase :=
  encrypt_with_message_modulus p message p.message_modulus

/-- Value returned by decrypt_lwe_ciphertext: the encoded plaintext plus the
sampled noise e, wrapping modulo 2 ^ 64. -/
def decrypted_with_noise (c : CiphertextBase) (e : ℤ) : ℕ :=
  (((c.ct : ℤ) + e) % (2 ^ 64 : ℤ)).toNat

/-- decrypt_message_and_carry: adds the rounding correction read off the bit
below the message, then divides by delta. -/
def decrypt_message_and_carry (p : Parameters) (c : CiphertextBase) (e : ℤ) : ℕ :=
  let decrypted_u64 := decrypted_with_noise c e
  let rounding_bit := p.delta >>> 1
  let rounding := (decrypted_u64 &&& rounding_bit) <<< 1 % 2 ^ 64
  (decrypted_u64 + rounding) % 2 ^ 64 / p.delta

/-- decrypt: decrypt_message_and_carry reduced modulo the ciphertext's own
message modulus. -/
def decrypt (p : Parameters) (c : CiphertextBase) (e : ℤ) : ℕ :=
  decrypt_message_and_carry p c e % c.message_modulus

/-! ## Engine accumulators (shortint/engine/mod.rs) -/

/-- Server key: only the fields the analysed functions read; polynomial_size
is the size N of the bootstrapping key polynomials. -/
structure ServerKey where
  polynomial_size : ℕ
  message_modulus : ℕ
  carry_modulus : ℕ
deriving DecidableEq

/-- GLWE ciphertext, its two coefficient regions viewed as index functions. -/
structure GlweCiphertext where
  mask : ℕ → ℕ
  body : ℕ → ℕ

/-- GlweCiphertext::new(0, ...): an all-zero ciphertext. -/
def GlweCiphertext.zero : GlweCiphertext :=
  { mask := fun _ => 0, body := fun _ => 0 }

/-- fill_accumulator: zeroes the mask, writes f(i) * delta into the box of
box_size coefficients starting at i * box_size for each i below
message_modulus * carry_modulus (tracking the max of f over the written
boxes), wrapping-negates the first box_size / 2 body coefficients, rotates
the body left by box_size / 2, and returns the tracked max. -/
def fill_accumulator (accumulator : GlweCiphertext) (server_key : ServerKey)
    (f : ℕ → ℕ) : GlweCiphertext × ℕ :=
  let modulus_sup := server_key.message_modulus * server_key.carry_modulus
  let box_size := server_key.polynomial_size / modulus_sup
  let delta := 2 ^ 63 / (server_key.message_modulus * server_key.carry_modulus)
  let body_after_boxes := (List.range modulus_sup).foldl
    (fun bd i => fun t =>
      if i * box_size ≤ t ∧ t < i * box_size + box_size then f i * delta % 2 ^ 64
      else bd t)
    accumulator.body
  let max_value := (List.range modulus_sup).foldl
    (fun mv i => if box_size = 0 then mv else max mv (f i)) 0
  let half_box_size := box_size / 2
  let body_negated := fun t =>
    if t < half_box_size then wrapNeg 64 (body_after_boxes t) else body_after_boxes t
  let body_rotated := fun t => body_negated ((t + half_box_size) % server_key.polynomial_size)
  ({ mask := fun _ => 0, body := body_rotated }, max_value)

/-- Lookup table: accumulator GLWE plus its tracked degree. -/
structure LookupTable where
  acc : GlweCiphertext
  degree : ℕ

/-- generate_accumulator_with_engine: fills a fresh all-zero GLWE and stores
the returned max as the degree. -/
def generate_accumulator_with_engine (server_key : ServerKey) (f : ℕ → ℕ) :
    LookupTable :=
  let r := fill_accumulator GlweCiphertext.zero server_key f
  { acc := r.1, degree := r.2 }

/-- Bivariate lookup table: univariate accumulator plus the scaling factor
stored as ct_right_modulus. -/
structure BivariateLookupTable where
  acc : LookupTable
  ct_right_modulus : ℕ

/-- generate_accumulator_bivariate_with_engine: wraps the two-argument f into
wrapped_f(input) = f((input / factor) mod M, (input mod factor) mod M) and
invokes the univariate constructor, recording the scaling factor. -/
def generate_accumulator_bivariate_with_engine (server_key : ServerKey)
    (f : ℕ → ℕ → ℕ) (left_message_scaling : ℕ) : BivariateLookupTable :=
  let factor_u64 := left_message_scaling
  let message_modulus := server_key.message_modulus
  let wrapped_f := fun input =>
    f (input / factor_u64 % message_modulus) (input % factor_u64 % message_modulus)
  { acc := generate_accumulator_with_engine server_key wrapped_f
    ct_right_modulus := left_message_scaling }

/-- get_carry_clearing_accumulator_and_buffers, accumulator part: fills the
scratch GLWE with the function n mod message_modulus and stores the returned
max as the degree. -/
def get_carry_clearing_accumulator (server_key : ServerKey)
    (buffer : GlweCiphertext) : LookupTable :=
  let r := fill_accumulator buffer server_key
    (fun n => n % server_key.message_modulus)
  { acc := r.1, degree := r.2 }

/-! ## Server-side operations at plaintext-semantics level

The server-side engine methods (server_side.rs) are not part of the analysed
sources; following the specification they are modelled on a view of the
shortint ciphertext that tracks the encoded message-and-carry value and the
metadata, with a PBS evaluating the accumulator function on that value and
taking the accumulator's tracked max as the new degree. -/

/-- Modelled from the spec: server-side view of a shortint ciphertext,
tracking the currently encoded message-and-carry value together with its
degree and moduli metadata. -/
structure PlainCiphertext where
  val : ℕ
  degree : ℕ
  message_modulus : ℕ
  carry_modulus : ℕ
deriving DecidableEq

/-- Max tracked by fill_accumulator when the boxes are non-empty: the maximum
of f over the inputs below modulus_sup. -/
def accumulator_max (modulus_sup : ℕ) (f : ℕ → ℕ) : ℕ :=
  ((List.range modulus_sup).map f).foldl max 0

/-- Modelled from the spec (apply_lookup_table in server_side.rs is not in
the analysed sources): a PBS outputs the accumulator function applied to the
encoded value and the accumulator's tracked max as degree, with the server
key's moduli. -/
def apply_lookup_table (server_key : ServerKey) (f : ℕ → ℕ) (c : PlainCiphertext) :
    PlainCiphertext :=
  let modulus_sup := server_key.message_modulus * server_key.carry_modulus
  { val := f (c.val % modulus_sup)
    degree := accumulator_max modulus_sup f
    message_modulus := server_key.message_modulus
    carry_modulus := server_key.carry_modulus }

/-- Modelled from the spec invariant: carry_is_empty iff
degree < message_modulus. -/
def PlainCiphertext.carry_is_empty (c : PlainCiphertext) : Bool :=
  decide (c.degree < c.message_modulus)

/-- Modelled from the spec: clear_carry applies the carry-clearing PBS whose
accumulator holds n mod message_modulus (the accumulator built by
get_carry_clearing_accumulator_and_buffers). -/
def clear_carry (server_key : ServerKey) (c : PlainCiphertext) : PlainCiphertext :=
  apply_lookup_table server_key (fun n => n % server_key.message_modulus) c

/-- Modelled from the spec: in-place variant of clear_carry. -/
def clear_carry_assign (server_key : ServerKey) (c : PlainCiphertext) : PlainCiphertext :=
  clear_carry server_key c

/-- Modelled from the spec: feasibility predicate
(a.degree + 1) * message_modulus + b.degree < message_modulus * carry_modulus. -/
def is_functional_bivariate_pbs_possible (server_key : ServerKey)
    (a b : PlainCiphertext) : Bool :=
  decide ((a.degree + 1) * server_key.message_modulus + b.degree
    < server_key.message_modulus * server_key.carry_modulus)

/-- Modelled from the spec: the unchecked bivariate PBS packs the operands as
input = lhs * factor + rhs with a factor covering ct_right (its degree plus
one) and applies the bivariate accumulator built from f with that factor. -/
def unchecked_functional_bivariate_pbs (server_key : ServerKey) (f : ℕ → ℕ → ℕ)
    (a b : PlainCiphertext) : PlainCiphertext :=
  let factor := b.degree + 1
  let wrapped_f := fun input =>
    f (input / factor % server_key.message_modulus)
      (input % factor % server_key.message_modulus)
  apply_lookup_table server_key wrapped_f { a with val := a.val * factor + b.val }

/-- Modelled from the spec: bitwise AND as a bivariate PBS. -/
def unchecked_bitand (server_key : ServerKey) (a b : PlainCiphertext) : PlainCiphertext :=
  unchecked_functional_bivariate_pbs server_key (fun x y => x &&& y) a b

/-- Modelled from the spec: in-place variant of unchecked_bitand. -/
def unchecked_bitand_assign (server_key : ServerKey) (a b : PlainCiphertext) :
    PlainCiphertext :=
  unchecked_bitand server_key a b

/-- Modelled from the spec: bitwise OR as a bivariate PBS. -/
def unchecked_bitor (server_key : ServerKey) (a b : PlainCiphertext) : PlainCiphertext :=
  unchecked_functional_bivariate_pbs server_key (fun x y => x ||| y) a b

/-- Modelled from the spec: in-place variant of unchecked_bitor. -/
def unchecked_bitor_assign (server_key : ServerKey) (a b : PlainCiphertext) :
    PlainCiphertext :=
  unchecked_bitor server_key a b

/-- Modelled from the spec: bitwise XOR as a bivariate PBS. -/
def unchecked_bitxor (server_key : ServerKey) (a b : PlainCiphertext) : PlainCiphertext :=
  unchecked_functional_bivariate_pbs server_key (fun x y => x ^^^ y) a b

/-- Modelled from the spec: in-place variant of unchecked_bitxor. -/
def unchecked_bitxor_assign (server_key : ServerKey) (a b : PlainCiphertext) :
    PlainCiphertext :=
  unchecked_bitxor server_key a b

/-- CheckError from the shortint layer. -/
inductive CheckError where
  | CarryFull
deriving DecidableEq

/-! The checked and default operations below are translated from
shortint/server_key/bitwise_op.rs. -/

/-- checked_bitand: Ok(unchecked_bitand) when the bivariate PBS is feasible,
Err(CarryFull) otherwise. -/
def checked_bitand (server_key : ServerKey) (ct_left ct_right : PlainCiphertext) :
    Except CheckError PlainCiphertext :=
  if is_functional_bivariate_pbs_possible server_key ct_left ct_right then
    Except.ok (unchecked_bitand server_key ct_left ct_right)
  else Except.error CheckError.CarryFull

/-- checked_bitand_assign: stores unchecked_bitand_assign in ct_left when the
bivariate PBS is feasible, Err(CarryFull) otherwise. -/
def checked_bitand_assign (server_key : ServerKey) (ct_left ct_right : PlainCiphertext) :
    Except CheckError PlainCiphertext :=
  if is_functional_bivariate_pbs_possible server_key ct_left ct_right then
    Except.ok (unchecked_bitand_assign server_key ct_left ct_right)
  else Except.error CheckError.CarryFull

/-- checked_bitor: Ok(unchecked_bitor) when the bivariate PBS is feasible,
Err(CarryFull) otherwise. -/
def checked_bitor (server_key : ServerKey) (ct_left ct_right : PlainCiphertext) :
    Except CheckError PlainCiphertext :=
  if is_functional_bivariate_pbs_possible server_key ct_left ct_right then
    Except.ok (unchecked_bitor server_key ct_left ct_right)
  else Except.error CheckError.CarryFull

/-- checked_bitor_assign: stores unchecked_bitor_assign in ct_left when the
bivariate PBS is feasible, Err(CarryFull) otherwise. -/
def checked_bitor_assign (server_key : ServerKey) (ct_left ct_right : PlainCiphertext) :
    Except CheckError PlainCiphertext :=
  if is_functional_bivariate_pbs_possible server_key ct_left ct_right then
    Except.ok (unchecked_bitor_assign server_key ct_left ct_right)
  else Except.error CheckError.CarryFull

/-- checked_bitxor: Ok(unchecked_bitxor) when the bivariate PBS is feasible,
Err(CarryFull) otherwise. -/
def checked_bitxor (server_key : ServerKey) (ct_left ct_right : PlainCiphertext) :
    Except CheckError PlainCiphertext :=
  if is_functional_bivariate_pbs_possible server_key ct_left ct_right then
    Except.ok (unchecked_bitxor server_key ct_left ct_right)
  else Except.error CheckError.CarryFull

/-- checked_bitxor_assign: stores unchecked_bitxor_assign in ct_left when the
bivariate PBS is feasible, Err(CarryFull) otherwise. -/
def checked_bitxor_assign (server_key : ServerKey) (ct_left ct_right : PlainCiphertext) :
    Except CheckError PlainCiphertext :=
  if is_functional_bivariate_pbs_possible server_key ct_left ct_right then
    Except.ok (unchecked_bitxor_assign server_key ct_left ct_right)
  else Except.error CheckError.CarryFull

/-- bitand_assign: clears ct_left's carry in place when non-empty, substitutes
a carry-cleared temporary for ct_right when its carry is non-empty, then
performs the unchecked AND into ct_left. -/
def bitand_assign (server_key : ServerKey) (ct_left ct_right : PlainCiphertext) :
    PlainCiphertext :=
  let l := if !ct_left.carry_is_empty then clear_carry_assign server_key ct_left
    else ct_left
  let rhs := if ct_right.carry_is_empty then ct_right
    else clear_carry server_key ct_right
  unchecked_bitand_assign server_key l rhs

/-- bitand: clones ct_left and runs bitand_assign on the clone, leaving both
original inputs untouched. -/
def bitand (server_key : ServerKey) (ct_left ct_right : PlainCiphertext) :
    PlainCiphertext :=
  bitand_assign server_key ct_left ct_right

/-- bitxor_assign: clears ct_left's carry in place when non-empty, substitutes
a carry-cleared temporary for ct_right when its carry is non-empty, then
performs the unchecked XOR into ct_left. -/
def bitxor_assign (server_key : ServerKey) (ct_left ct_right : PlainCiphertext) :
    PlainCiphertext :=
  let l := if !ct_left.carry_is_empty then clear_carry_assign server_key ct_left
    else ct_left
  let rhs := if ct_right.carry_is_empty then ct_right
    else clear_carry server_key ct_right
  unchecked_bitxor_assign server_key l rhs

/-- bitxor: clones ct_left and runs bitxor_assign on the clone. -/
def bitxor (server_key : ServerKey) (ct_left ct_right : PlainCiphertext) :
    PlainCiphertext :=
  bitxor_assign server_key ct_left ct_right

/-- bitor_assign: clears ct_left's carry in place when non-empty, substitutes
a carry-cleared temporary for ct_right when its carry is non-empty, then
performs the unchecked OR into ct_left. -/
def bitor_assign (server_key : ServerKey) (ct_left ct_right : PlainCiphertext) :
    PlainCiphertext :=
  let l := if !ct_left.carry_is_empty then clear_carry_assign server_key ct_left
    else ct_left
  let rhs := if ct_right.carry_is_empty then ct_right
    else clear_carry server_key ct_right
  unchecked_bitor_assign server_key l rhs

/-- bitor: clones ct_left and runs bitor_assign on the clone. -/
def bitor (server_key : ServerKey) (ct_left ct_right : PlainCiphertext) :
    PlainCiphertext :=
  bitor_assign server_key ct_left ct_right

/-! ## Radix carry propagation (integer/server_key/radix_parallel/mod.rs) -/

/-- Modelled from the spec: carry_extract is a PBS with the carry extraction
function x / message_modulus (server_side.rs is not in the analysed sources). -/
def carry_extract (server_key : ServerKey) (c : PlainCiphertext) : PlainCiphertext :=
  apply_lookup_table server_key (fun x => x / server_key.message_modulus) c

/-- Modelled from the spec: message_extract is a PBS with the message
extraction function x mod message_modulus. -/
def message_extract (server_key : ServerKey) (c : PlainCiphertext) : PlainCiphertext :=
  apply_lookup_table server_key (fun x => x % server_key.message_modulus) c

/-- Modelled from the spec: unchecked_add_assign is linear: encoded values
add and degrees add. -/
def unchecked_add_assign (lhs rhs : PlainCiphertext) : PlainCiphertext :=
  { lhs with val := lhs.val + rhs.val, degree := lhs.degree + rhs.degree }

/-- propagate_parallelized, translated statement by statement: the local
binding block aliases blocks[index] for the whole body, so the message
extract overwrites it and, when index is not the last block, the carry is
added into that same binding before it is stored back at position index. -/
def propagate_parallelized (server_key : ServerKey) (blocks : List PlainCiphertext)
    (index : ℕ) : List PlainCiphertext :=
  let is_last_block := index == blocks.length - 1
  let block := blocks.getD index ⟨0, 0, 0, 0⟩
  if block.carry_is_empty then blocks
  else
    let carry := carry_extract server_key block
    let message := message_extract server_key block
    let block1 := message
    let block2 := if !is_last_block then unchecked_add_assign block1 carry else block1
    blocks.set index block2

/-! ## Spec-side descriptions used by the refinement statements -/

/-- Accumulator body as the spec words it: the contiguous box of box_size
coefficients starting at index i * box_size carries f(i) * delta, for each i
below modulus_sup. -/
def spec_box_body (box_size delta modulus_sup : ℕ) (f : ℕ → ℕ) (orig : ℕ → ℕ) :
    ℕ → ℕ :=
  fun t => if t < modulus_sup * box_size then f (t / box_size) * delta % 2 ^ 64
    else orig t

/-- Spec step: wrapping-negate the first half coefficients. -/
def spec_negate_first (half : ℕ) (bd : ℕ → ℕ) : ℕ → ℕ :=
  fun t => if t < half then wrapNeg 64 (bd t) else bd t

/-- Spec step: rotate the coefficient vector of length n left by half. -/
def spec_rotate_left (n half : ℕ) (bd : ℕ → ℕ) : ℕ → ℕ :=
  fun t => bd ((t + half) % n)

/-! ## Helper lemmas -/

theorem foldl_max_le {c : ℕ} : ∀ (l : List ℕ) (a : ℕ), a ≤ c → (∀ x ∈ l, x ≤ c) →
    l.foldl max a ≤ c
  | [], _, ha, _ => ha
  | x :: xs, a, ha, h => by
    have hx : x ≤ c := h x (List.mem_cons_self x xs)
    exact foldl_max_le xs (max a x) (max_le ha hx)
      (fun y hy => h y (List.mem_cons_of_mem _ hy))

theorem accumulator_max_le {n c : ℕ} {f : ℕ → ℕ} (h : ∀ i < n, f i ≤ c) :
    accumulator_max n f ≤ c := by
  refine foldl_max_le _ _ (Nat.zero_le c) ?_
  intro x hx
  obtain ⟨i, hi, rfl⟩ := List.mem_map.mp hx
  exact h i (List.mem_range.mp hi)

theorem and_two_pow_div (x j : ℕ) : x &&& 2 ^ j = x / 2 ^ j % 2 * 2 ^ j := by
  rw [Nat.and_two_pow, Nat.testBit_to_div_mod]
  rcases Nat.mod_two_eq_zero_or_one (x / 2 ^ j) with h | h <;> simp [h]

theorem round_core (K q r : ℕ) (hK : K + 1 ≤ 63) (hq : q < 2 ^ (63 - K))
    (hr : r < 2 ^ (K + 1)) :
    (q * 2 ^ (K + 1) + r + ((q * 2 ^ (K + 1) + r) &&& 2 ^ K) <<< 1 % 2 ^ 64) % 2 ^ 64
        / 2 ^ (K + 1)
      = (q + r / 2 ^ K) % 2 ^ (63 - K) := by
  have h2K : 0 < 2 ^ K := pow_pos (by norm_num) K
  have h2K1 : 0 < 2 ^ (K + 1) := pow_pos (by norm_num) (K + 1)
  have hpow : (2 : ℕ) ^ (K + 1) = 2 ^ K * 2 := pow_succ 2 K
  have hDdiv : (q * 2 ^ (K + 1) + r) / 2 ^ K = 2 * q + r / 2 ^ K := by
    rw [show q * 2 ^ (K + 1) + r = 2 ^ K * (2 * q) + r by rw [hpow]; ring]
    rw [Nat.mul_add_div h2K]
  have hrd : r / 2 ^ K = 0 ∨ r / 2 ^ K = 1 := by
    have h2 : r / 2 ^ K < 2 := Nat.div_lt_of_lt_mul (by rw [← hpow]; exact hr)
    generalize r / 2 ^ K = d at h2 ⊢
    omega
  have hmod2 : (q * 2 ^ (K + 1) + r) / 2 ^ K % 2 = r / 2 ^ K := by
    rw [hDdiv, Nat.mul_add_mod]
    omega
  have hand : (q * 2 ^ (K + 1) + r) &&& 2 ^ K = r / 2 ^ K * 2 ^ K := by
    rw [and_two_pow_div, hmod2]
  have hshift : ((q * 2 ^ (K + 1) + r) &&& 2 ^ K) <<< 1 = r / 2 ^ K * 2 ^ (K + 1) := by
    rw [hand, Nat.shiftLeft_eq, pow_one, hpow]
    ring
  have hsmall : r / 2 ^ K * 2 ^ (K + 1) < 2 ^ 64 := by
    have h63 : (2 : ℕ) ^ (K + 1) ≤ 2 ^ 63 := Nat.pow_le_pow_right (by norm_num) hK
    have h64 : (2 : ℕ) ^ 63 < 2 ^ 64 := by norm_num
    rcases hrd with h | h <;> rw [h] <;> omega
  have hpow64 : 2 ^ (63 - K) * 2 ^ (K + 1) = 2 ^ 64 := by
    rw [← pow_add]
    congr 1
    omega
  have hnum : q * 2 ^ (K + 1) + r + r / 2 ^ K * 2 ^ (K + 1)
      = (q + r / 2 ^ K) * 2 ^ (K + 1) + r := by ring
  rw [hshift, Nat.mod_eq_of_lt hsmall, hnum]
  have hQle : q + r / 2 ^ K ≤ 2 ^ (63 - K) := by rcases hrd with h | h <;> rw [h] <;> omega
  rcases lt_or_eq_of_le hQle with hQlt | hQeq
  · have hlt : (q + r / 2 ^ K) * 2 ^ (K + 1) + r < 2 ^ 64 := by
      calc (q + r / 2 ^ K) * 2 ^ (K + 1) + r
          < (q + r / 2 ^ K) * 2 ^ (K + 1) + 2 ^ (K + 1) := by omega
        _ = (q + r / 2 ^ K + 1) * 2 ^ (K + 1) := by ring
        _ ≤ 2 ^ (63 - K) * 2 ^ (K + 1) := Nat.mul_le_mul_right _ hQlt
        _ = 2 ^ 64 := hpow64
    rw [Nat.mod_eq_of_lt hlt,
      show (q + r / 2 ^ K) * 2 ^ (K + 1) + r = 2 ^ (K + 1) * (q + r / 2 ^ K) + r by ring,
      Nat.mul_add_div h2K1, Nat.div_eq_of_lt hr, Nat.mod_eq_of_lt hQlt]
    omega
  · have h2 : (q + r / 2 ^ K) * 2 ^ (K + 1) = 2 ^ 64 := by rw [hQeq]; exact hpow64
    have hr64 : r < 2 ^ 64 :=
      lt_of_lt_of_le hr (Nat.pow_le_pow_right (by norm_num) (by omega))
    rw [h2, Nat.add_mod_left, Nat.mod_eq_of_lt hr64, Nat.div_eq_of_lt hr, hQeq,
      Nat.mod_self]

theorem write_boxes_eval (box_size delta : ℕ) (f : ℕ → ℕ) (body : ℕ → ℕ) (n : ℕ)
    (hbox : 0 < box_size) (t : ℕ) :
    ((List.range n).foldl
      (fun bd i => fun s =>
        if i * box_size ≤ s ∧ s < i * box_size + box_size then f i * delta % 2 ^ 64
        else bd s)
      body) t
      = if t < n * box_size then f (t / box_size) * delta % 2 ^ 64 else body t := by
  induction n with
  | zero => simp
  | succ n ih =>
    rw [List.range_succ, List.foldl_append, List.foldl_cons, List.foldl_nil]
    have hmul : (n + 1) * box_size = n * box_size + box_size := by ring
    by_cases hwin : n * box_size ≤ t ∧ t < n * box_size + box_size
    · have ht : t < (n + 1) * box_size := by clear ih; omega
      have hdiv : t / box_size = n := Nat.div_eq_of_lt_le hwin.1 (by clear ih; omega)
      rw [if_pos hwin, if_pos ht, hdiv]
    · rw [if_neg hwin, ih]
      by_cases h1 : t < n * box_size
      · rw [if_pos h1, if_pos (by clear ih; omega)]
      · rw [if_neg h1, if_neg (by clear ih; omega)]

theorem max_fold_eval (n box_size : ℕ) (f : ℕ → ℕ) (hbox : box_size ≠ 0) :
    (List.range n).foldl (fun mv i => if box_size = 0 then mv else max mv (f i)) 0
      = accumulator_max n f := by
  show _ = ((List.range n).map f).foldl max 0
  rw [List.foldl_map]
  simp [hbox]

theorem dot_fold_eq (w : ℕ) : ∀ (l r : List ℕ) (a : ℕ),
    (l.zip r).foldl (fun acc p => wrapAdd w acc (wrapMul w p.1 p.2)) a
      = (List.zipWith (wrapMul w) l r).foldl (wrapAdd w) a
  | [], r, a => by simp
  | x :: xs, [], a => by simp
  | x :: xs, y :: ys, a => by
    simp only [List.zip_cons_cons, List.zipWith_cons_cons, List.foldl_cons]
    exact dot_fold_eq w xs ys _

theorem decrypt_message_and_carry_eq (p : Parameters) (c : CiphertextBase) (e : ℤ) :
    decrypt_message_and_carry p c e
      = (decrypted_with_noise c e
          + (decrypted_with_noise c e &&& p.delta >>> 1) <<< 1 % 2 ^ 64) % 2 ^ 64
        / p.delta := rfl

theorem decrypted_with_noise_eq (c : CiphertextBase) (e : ℤ) :
    decrypted_with_noise c e = (((c.ct : ℤ) + e) % (2 ^ 64 : ℤ)).toNat := rfl

theorem unchecked_bivariate_degree_le (j : ℕ) (server_key : ServerKey)
    (op : ℕ → ℕ → ℕ) (hM : server_key.message_modulus = 2 ^ j)
    (hop : ∀ x y, x < 2 ^ j → y < 2 ^ j → op x y < 2 ^ j)
    (a b : PlainCiphertext) :
    (unchecked_functional_bivariate_pbs server_key op a b).degree
      ≤ server_key.message_modulus - 1 := by
  rw [hM]
  refine accumulator_max_le ?_
  intro i _
  rw [hM]
  have hx : i / (b.degree + 1) % 2 ^ j < 2 ^ j :=
    Nat.mod_lt _ (pow_pos (by norm_num) j)
  have hy : i % (b.degree + 1) % 2 ^ j < 2 ^ j :=
    Nat.mod_lt _ (pow_pos (by norm_num) j)
  have h := hop _ _ hx hy
  omega

/-! ## Claim theorems -/

/-- C1: the claim states that propagate_parallelized replaces block i by its
message extract and folds the carry extract into block i + 1.  The code does
not: the local binding for block i receives message + carry and block i + 1
is left unchanged.  On a two-block radix ciphertext with block 0 holding
value 6 (degree 6) under message and carry modulus 4, the code turns block 0
into value 2 + 1 = 3 and keeps block 1 at value 2, whereas the claim (and
the function's own doctest) require block 0 = 2 and block 1 = 2 + 1 = 3. -/
theorem claim_C1_propagate_folds_carry_into_same_block :
    propagate_parallelized ⟨1024, 4, 4⟩ [⟨6, 6, 4, 4⟩, ⟨2, 2, 4, 4⟩] 0
      = [⟨3, 6, 4, 4⟩, ⟨2, 2, 4, 4⟩] := by
  decide

/-- C2: the claim states that slice_wrapping_opposite_assign_custom_mod
performs modular negation (0 maps to 0 and x maps to modulus - x).  The code
computes half_q + 1 wrapping_sub (x wrapping_sub (half_q + 1)) instead: with
64-bit scalars and modulus 4 the slice [0, 3] becomes [6, 3], while modular
negation would give [0, 1]. -/
theorem claim_C2_opposite_custom_mod_is_not_negation :
    slice_wrapping_opposite_assign_custom_mod 64 [0, 3] 4 = [6, 3]
      ∧ ¬ ([6, 3] = [0, 4 - 3]) := by
  exact ⟨by decide, by decide⟩

/-- C4: for every server key and pair of ciphertexts, each checked bitwise
operation (and, or, xor and the assign variants) returns Err(CarryFull)
exactly when the feasibility predicate
(a.degree + 1) * message_modulus + b.degree < message_modulus * carry_modulus
is false, and returns Ok of the corresponding unchecked operation when the
predicate holds. -/
theorem claim_C4_checked_bitwise_carry_full (server_key : ServerKey)
    (a b : PlainCiphertext) :
    ((checked_bitand server_key a b = Except.error CheckError.CarryFull
        ↔ is_functional_bivariate_pbs_possible server_key a b = false)
      ∧ (is_functional_bivariate_pbs_possible server_key a b = true
        → checked_bitand server_key a b
          = Except.ok (unchecked_bitand server_key a b)))
    ∧ ((checked_bitand_assign server_key a b = Except.error CheckError.CarryFull
        ↔ is_functional_bivariate_pbs_possible server_key a b = false)
      ∧ (is_functional_bivariate_pbs_possible server_key a b = true
        → checked_bitand_assign server_key a b
          = Except.ok (unchecked_bitand_assign server_key a b)))
    ∧ ((checked_bitor server_key a b = Except.error CheckError.CarryFull
        ↔ is_functional_bivariate_pbs_possible server_key a b = false)
      ∧ (is_functional_bivariate_pbs_possible server_key a b = true
        → checked_bitor server_key a b
          = Except.ok (unchecked_bitor server_key a b)))
    ∧ ((checked_bitor_assign server_key a b = Except.error CheckError.CarryFull
        ↔ is_functional_bivariate_pbs_possible server_key a b = false)
      ∧ (is_functional_bivariate_pbs_possible server_key a b = true
        → checked_bitor_assign server_key a b
          = Except.ok (unchecked_bitor_assign server_key a b)))
    ∧ ((checked_bitxor server_key a b = Except.error CheckError.CarryFull
        ↔ is_functional_bivariate_pbs_possible server_key a b = false)
      ∧ (is_functional_bivariate_pbs_possible server_key a b = true
        → checked_bitxor server_key a b
          = Except.ok (unchecked_bitxor server_key a b)))
    ∧ ((checked_bitxor_assign server_key a b = Except.error CheckError.CarryFull
        ↔ is_functional_bivariate_pbs_possible server_key a b = false)
      ∧ (is_functional_bivariate_pbs_possible server_key a b = true
        → checked_bitxor_assign server_key a b
          = Except.ok (unchecked_bitxor_assign server_key a b))) := by
  cases h : is_functional_bivariate_pbs_possible server_key a b <;>
    simp [checked_bitand, checked_bitand_assign, checked_bitor,
      checked_bitor_assign, checked_bitxor, checked_bitxor_assign, h]

/-- Witness for C4: on a concrete feasible pair under message and carry
modulus 4, checked_bitand returns Ok of the unchecked AND. -/
theorem claim_C4_checked_bitwise_carry_full_witness :
    checked_bitand ⟨1024, 4, 4⟩ ⟨1, 1, 4, 4⟩ ⟨1, 1, 4, 4⟩
      = Except.ok (unchecked_bitand ⟨1024, 4, 4⟩ ⟨1, 1, 4, 4⟩ ⟨1, 1, 4, 4⟩) :=
  (claim_C4_checked_bitwise_carry_full ⟨1024, 4, 4⟩ ⟨1, 1, 4, 4⟩ ⟨1, 1, 4, 4⟩).1.2
    (by decide)

/-- C6 counterexample: with parameter message and carry moduli both 4
(product 16) and requested message modulus 3, the produced ciphertext has
message_modulus * carry_modulus = 3 * (16 / 3) = 15, not 16, so the claimed
product equality fails for a requested modulus that does not divide the
parameter product. -/
theorem claim_C6_product_not_preserved :
    ¬ ((encrypt_with_message_modulus ⟨4, 4⟩ 0 3).message_modulus
        * (encrypt_with_message_modulus ⟨4, 4⟩ 0 3).carry_modulus = 4 * 4) := by
  decide

/-- C6 (amended): encrypt_with_message_modulus reduces the message modulo the
requested modulus and encodes it by the delta of the parameter product, sets
degree = message_modulus - 1 and carry_modulus = parameter product divided by
the requested modulus; the product message_modulus * carry_modulus equals
the parameter product whenever the requested modulus is positive and divides
the parameter product. -/
theorem claim_C6_encrypt_with_message_modulus (p : Parameters)
    (message mmod : ℕ) :
    (encrypt_with_message_modulus p message mmod).ct
        = message % mmod * p.delta % 2 ^ 64
      ∧ (encrypt_with_message_modulus p message mmod).degree = mmod - 1
      ∧ (encrypt_with_message_modulus p message mmod).carry_modulus
        = p.message_modulus * p.carry_modulus / mmod
      ∧ (mmod ∣ p.message_modulus * p.carry_modulus → 0 < mmod →
          (encrypt_with_message_modulus p message mmod).message_modulus
              * (encrypt_with_message_modulus p message mmod).carry_modulus
            = p.message_modulus * p.carry_modulus) := by
  refine ⟨rfl, rfl, rfl, fun hdvd _ => ?_⟩
  exact Nat.mul_div_cancel' hdvd

/-- Witness for C6: with parameter product 16 and requested modulus 2 the
moduli of the produced ciphertext multiply back to the parameter product. -/
theorem claim_C6_encrypt_with_message_modulus_witness :
    (encrypt_with_message_modulus ⟨4, 4⟩ 9 2).message_modulus
        * (encrypt_with_message_modulus ⟨4, 4⟩ 9 2).carry_modulus = 4 * 4 :=
  (claim_C6_encrypt_with_message_modulus ⟨4, 4⟩ 9 2).2.2.2 (by decide) (by decide)

/-- C8: the bivariate accumulator is exactly the univariate accumulator of
the wrapped function g(input) = f((input / scaling) mod message_modulus,
(input mod scaling) mod message_modulus), and it stores the scaling factor
as ct_right_modulus. -/
theorem claim_C8_bivariate_accumulator (server_key : ServerKey)
    (f : ℕ → ℕ → ℕ) (scaling : ℕ) :
    generate_accumulator_bivariate_with_engine server_key f scaling
      = { acc := generate_accumulator_with_engine server_key
            (fun input => f (input / scaling % server_key.message_modulus)
              (input % scaling % server_key.message_modulus))
          ct_right_modulus := scaling } := rfl

/-- C10: every accumulator the engine builds is a trivial GLWE encryption:
fill_accumulator sets every mask coefficient to zero, and so do the
univariate, bivariate and carry-clearing accumulator constructors built on
top of it. -/
theorem claim_C10_accumulators_have_zero_mask (accumulator buffer : GlweCiphertext)
    (server_key : ServerKey) (f : ℕ → ℕ) (g : ℕ → ℕ → ℕ) (scaling j : ℕ) :
    (fill_accumulator accumulator server_key f).1.mask j = 0
      ∧ (generate_accumulator_with_engine server_key f).acc.mask j = 0
      ∧ (generate_accumulator_bivariate_with_engine server_key g scaling).acc.acc.mask j
        = 0
      ∧ (get_carry_clearing_accumulator server_key buffer).acc.mask j = 0 :=
  ⟨rfl, rfl, rfl, rfl⟩

/-- C9: the numeric-kernel routines abort (none) exactly on a length
mismatch, and on equal lengths (plus an output slice of the same length for
the non-assign forms) they perform the element-wise wrapping computation. -/
theorem claim_C9_slice_length_guards (w : ℕ) (output lhs rhs : List ℕ)
    (scalar : ℕ) :
    (slice_wrapping_dot_product w lhs rhs = none ↔ lhs.length ≠ rhs.length)
      ∧ (lhs.length = rhs.length →
          slice_wrapping_dot_product w lhs rhs
            = some ((List.zipWith (wrapMul w) lhs rhs).foldl (wrapAdd w) 0))
      ∧ (slice_wrapping_add w output lhs rhs = none
          ↔ (lhs.length ≠ rhs.length ∨ output.length ≠ lhs.length))
      ∧ (lhs.length = rhs.length → output.length = lhs.length →
          slice_wrapping_add w output lhs rhs
            = some (List.zipWith (wrapAdd w) lhs rhs))
      ∧ (slice_wrapping_add_assign w lhs rhs = none ↔ lhs.length ≠ rhs.length)
      ∧ (lhs.length = rhs.length →
          slice_wrapping_add_assign w lhs rhs
            = some (List.zipWith (wrapAdd w) lhs rhs))
      ∧ (slice_wrapping_sub w output lhs rhs = none
          ↔ (lhs.length ≠ rhs.length ∨ output.length ≠ lhs.length))
      ∧ (lhs.length = rhs.length → output.length = lhs.length →
          slice_wrapping_sub w output lhs rhs
            = some (List.zipWith (wrapSub w) lhs rhs))
      ∧ (slice_wrapping_add_scalar_mul_assign w lhs rhs scalar = none
          ↔ lhs.length ≠ rhs.length)
      ∧ (lhs.length = rhs.length →
          slice_wrapping_add_scalar_mul_assign w lhs rhs scalar
            = some (List.zipWith (fun l r => wrapAdd w l (wrapMul w r scalar)) lhs rhs))
      ∧ (slice_wrapping_sub_scalar_mul_assign w lhs rhs scalar = none
          ↔ lhs.length ≠ rhs.length)
      ∧ (lhs.length = rhs.length →
          slice_wrapping_sub_scalar_mul_assign w lhs rhs scalar
            = some (List.zipWith (fun l r => wrapSub w l (wrapMul w r scalar)) lhs rhs)) := by
  refine ⟨?_, ?_, ?_, ?_, ?_, ?_, ?_, ?_, ?_, ?_, ?_, ?_⟩
  · simp only [slice_wrapping_dot_product]
    split_ifs with h <;> simp [h]
  · intro h
    simp only [slice_wrapping_dot_product, if_pos h]
    rw [dot_fold_eq]
  · simp only [slice_wrapping_add]
    split_ifs with h1 h2
    · simp [h1, h2]
    · exact ⟨fun _ => Or.inr h2, fun _ => rfl⟩
    · simp [h1]
  · intro h1 h2
    simp [slice_wrapping_add, h1, h2]
  · simp only [slice_wrapping_add_assign]
    split_ifs with h <;> simp [h]
  · intro h
    simp [slice_wrapping_add_assign, h]
  · simp only [slice_wrapping_sub]
    split_ifs with h1 h2
    · simp [h1, h2]
    · exact ⟨fun _ => Or.inr h2, fun _ => rfl⟩
    · simp [h1]
  · intro h1 h2
    simp [slice_wrapping_sub, h1, h2]
  · simp only [slice_wrapping_add_scalar_mul_assign]
    split_ifs with h <;> simp [h]
  · intro h
    simp [slice_wrapping_add_scalar_mul_assign, h]
  · simp only [slice_wrapping_sub_scalar_mul_assign]
    split_ifs with h <;> simp [h]
  · intro h
    simp [slice_wrapping_sub_scalar_mul_assign, h]

/-- Witness for C9: a concrete element-wise wrapping addition on 8-bit
scalars goes through the length guard. -/
theorem claim_C9_slice_length_guards_witness :
    slice_wrapping_add_assign 8 [1, 2] [255, 255]
      = some (List.zipWith (wrapAdd 8) [1, 2] [255, 255]) :=
  (claim_C9_slice_length_guards 8 [] [1, 2] [255, 255] 0).2.2.2.2.2.1 rfl

/-- C5: the default bitwise operations are total functions; the non-assign
forms run the assign form on a clone of ct_left so the original operands are
untouched, the assign form takes ct_right immutably and substitutes a
carry-cleared temporary for it when its carry is non-empty; and, for a
power-of-two message modulus, the output degree is at most
message_modulus - 1, so the output carry is empty. -/
theorem claim_C5_default_bitwise_output_degree (j : ℕ) (server_key : ServerKey)
    (a b : PlainCiphertext) (hM : server_key.message_modulus = 2 ^ j) :
    (bitand server_key a b = bitand_assign server_key a b
        ∧ bitor server_key a b = bitor_assign server_key a b
        ∧ bitxor server_key a b = bitxor_assign server_key a b)
      ∧ (bitand server_key a b).degree ≤ server_key.message_modulus - 1
      ∧ (bitor server_key a b).degree ≤ server_key.message_modulus - 1
      ∧ (bitxor server_key a b).degree ≤ server_key.message_modulus - 1
      ∧ (bitand server_key a b).carry_is_empty = true
      ∧ (bitor server_key a b).carry_is_empty = true
      ∧ (bitxor server_key a b).carry_is_empty = true := by
  have hMpos : 0 < server_key.message_modulus := by
    rw [hM]
    exact pow_pos (by norm_num) j
  have hand : ∀ x y : ℕ, x < 2 ^ j → y < 2 ^ j → x &&& y < 2 ^ j :=
    fun x y hx _ => lt_of_le_of_lt Nat.and_le_left hx
  have hor : ∀ x y : ℕ, x < 2 ^ j → y < 2 ^ j → (x ||| y) < 2 ^ j :=
    fun x y hx hy => Nat.or_lt_two_pow hx hy
  have hxor : ∀ x y : ℕ, x < 2 ^ j → y < 2 ^ j → (x ^^^ y) < 2 ^ j :=
    fun x y hx hy => Nat.xor_lt_two_pow hx hy
  have hda : (bitand server_key a b).degree ≤ server_key.message_modulus - 1 :=
    unchecked_bivariate_degree_le j server_key _ hM hand _ _
  have hdo : (bitor server_key a b).degree ≤ server_key.message_modulus - 1 :=
    unchecked_bivariate_degree_le j server_key _ hM hor _ _
  have hdx : (bitxor server_key a b).degree ≤ server_key.message_modulus - 1 :=
    unchecked_bivariate_degree_le j server_key _ hM hxor _ _
  refine ⟨⟨rfl, rfl, rfl⟩, hda, hdo, hdx, ?_, ?_, ?_⟩
  · have : (bitand server_key a b).message_modulus = server_key.message_modulus := rfl
    simp only [PlainCiphertext.carry_is_empty, this, decide_eq_true_eq]
    omega
  · have : (bitor server_key a b).message_modulus = server_key.message_modulus := rfl
    simp only [PlainCiphertext.carry_is_empty, this, decide_eq_true_eq]
    omega
  · have : (bitxor server_key a b).message_modulus = server_key.message_modulus := rfl
    simp only [PlainCiphertext.carry_is_empty, this, decide_eq_true_eq]
    omega

/-- Witness for C5: a default OR between a full-carry ciphertext (value 15,
degree 15) and a fresh one under message modulus 4 has degree at most 3. -/
theorem claim_C5_default_bitwise_output_degree_witness :
    (bitor ⟨1024, 4, 4⟩ ⟨15, 15, 4, 4⟩ ⟨3, 3, 4, 4⟩).degree ≤ 4 - 1 :=
  (claim_C5_default_bitwise_output_degree 2 ⟨1024, 4, 4⟩ ⟨15, 15, 4, 4⟩
    ⟨3, 3, 4, 4⟩ (by decide)).2.2.1

/-- C7: for a positive box size dividing the polynomial size, the body that
fill_accumulator produces is exactly the spec pipeline — write f(i) * delta
into the contiguous box of box_size coefficients starting at i * box_size
for each i, wrapping-negate the first box_size / 2 coefficients, rotate the
whole coefficient vector left by box_size / 2 — and the returned max is the
maximum of f over the inputs below message_modulus * carry_modulus. -/
theorem claim_C7_fill_accumulator_spec (server_key : ServerKey) (f : ℕ → ℕ)
    (accumulator : GlweCiphertext) (modulus_sup box_size delta : ℕ)
    (hms : modulus_sup = server_key.message_modulus * server_key.carry_modulus)
    (hbs : box_size = server_key.polynomial_size / modulus_sup)
    (hdelta : delta = 2 ^ 63 / modulus_sup)
    (hbox : 0 < box_size)
    (hN : modulus_sup * box_size = server_key.polynomial_size) :
    (∀ t, t < server_key.polynomial_size →
      (fill_accumulator accumulator server_key f).1.body t
        = spec_rotate_left server_key.polynomial_size (box_size / 2)
            (spec_negate_first (box_size / 2)
              (spec_box_body box_size delta modulus_sup f accumulator.body)) t)
      ∧ (fill_accumulator accumulator server_key f).2
        = accumulator_max modulus_sup f := by
  subst hms
  subst hbs
  subst hdelta
  constructor
  · intro t _
    show (fun t =>
        (fun s => if s
            < server_key.polynomial_size
              / (server_key.message_modulus * server_key.carry_modulus) / 2 then
          wrapNeg 64 (((List.range
              (server_key.message_modulus * server_key.carry_modulus)).foldl
            (fun bd i => fun s =>
              if i * (server_key.polynomial_size
                    / (server_key.message_modulus * server_key.carry_modulus)) ≤ s
                  ∧ s < i * (server_key.polynomial_size
                    / (server_key.message_modulus * server_key.carry_modulus))
                    + server_key.polynomial_size
                      / (server_key.message_modulus * server_key.carry_modulus) then
                f i * (2 ^ 63 / (server_key.message_modulus * server_key.carry_modulus))
                  % 2 ^ 64
              else bd s)
            accumulator.body) s)
        else ((List.range
              (server_key.message_modulus * server_key.carry_modulus)).foldl
            (fun bd i => fun s =>
              if i * (server_key.polynomial_size
                    / (server_key.message_modulus * server_key.carry_modulus)) ≤ s
                  ∧ s < i * (server_key.polynomial_size
                    / (server_key.message_modulus * server_key.carry_modulus))
                    + server_key.polynomial_size
                      / (server_key.message_modulus * server_key.carry_modulus) then
                f i * (2 ^ 63 / (server_key.message_modulus * server_key.carry_modulus))
                  % 2 ^ 64
              else bd s)
            accumulator.body) s)
          ((t + server_key.polynomial_size
              / (server_key.message_modulus * server_key.carry_modulus) / 2)
            % server_key.polynomial_size)) t
      = _
    simp only [spec_rotate_left, spec_negate_first, spec_box_body,
      write_boxes_eval _ _ _ _ _ hbox]
  · show (List.range (server_key.message_modulus * server_key.carry_modulus)).foldl
        (fun mv i => if server_key.polynomial_size
            / (server_key.message_modulus * server_key.carry_modulus) = 0 then mv
          else max mv (f i)) 0
      = _
    exact max_fold_eval _ _ f (Nat.pos_iff_ne_zero.mp hbox)

/-- Witness for C7: on an 8-coefficient polynomial with message and carry
moduli 2 (boxes of size 2), the produced body agrees with the spec pipeline
at coefficient 5 and the returned max of the identity table is 3. -/
theorem claim_C7_fill_accumulator_spec_witness :
    (fill_accumulator GlweCiphertext.zero ⟨8, 2, 2⟩ (fun i => i)).1.body 5
        = spec_rotate_left 8 1 (spec_negate_first 1
            (spec_box_body 2 (2 ^ 61) 4 (fun i => i) GlweCiphertext.zero.body)) 5
      ∧ (fill_accumulator GlweCiphertext.zero ⟨8, 2, 2⟩ (fun i => i)).2
        = accumulator_max 4 (fun i => i) :=
  ⟨(claim_C7_fill_accumulator_spec ⟨8, 2, 2⟩ (fun i => i) GlweCiphertext.zero
      4 2 (2 ^ 61) (by decide) (by decide) (by decide) (by decide) (by decide)).1
      5 (by decide),
    (claim_C7_fill_accumulator_spec ⟨8, 2, 2⟩ (fun i => i) GlweCiphertext.zero
      4 2 (2 ^ 61) (by decide) (by decide) (by decide) (by decide) (by decide)).2⟩

/-- C3: for power-of-two message and carry moduli whose product divides
2 ^ 63, for every message below the message modulus and every sampled noise
e with absolute value below delta / 2, decrypting an encryption of m under
the matching parameters returns m: the encoding multiplies m by
delta = 2 ^ 63 / (message_modulus * carry_modulus) and decryption adds the
rounding correction, divides by delta, and reduces modulo message_modulus. -/
theorem claim_C3_encrypt_decrypt_round_trip (a b m : ℕ) (e : ℤ)
    (hab : a + b ≤ 63) (hm : m < 2 ^ a)
    (he : e.natAbs < (Parameters.mk (2 ^ a) (2 ^ b)).delta / 2) :
    decrypt (Parameters.mk (2 ^ a) (2 ^ b))
        (encrypt (Parameters.mk (2 ^ a) (2 ^ b)) m) e
      = m := by
  have hdelta : (Parameters.mk (2 ^ a) (2 ^ b)).delta = 2 ^ (63 - (a + b)) := by
    show 2 ^ 63 / (2 ^ a * 2 ^ b) = _
    rw [← pow_add, Nat.pow_div hab (by norm_num)]
  rcases Nat.eq_zero_or_pos (63 - (a + b)) with hk0 | hkpos
  · rw [hdelta, hk0] at he
    simp at he
  obtain ⟨K, hK⟩ : ∃ K, 63 - (a + b) = K + 1 := ⟨63 - (a + b) - 1, by omega⟩
  rw [hK] at hdelta
  have hKb : K + 1 ≤ 63 := by omega
  have h2a : (2 : ℕ) ^ a ≤ 2 ^ (63 - K) :=
    Nat.pow_le_pow_right (by norm_num) (by omega)
  have hKK1 : (2 : ℕ) ^ K < 2 ^ (K + 1) :=
    pow_lt_pow_right₀ (by norm_num) (Nat.lt_succ_self K)
  have hm63 : m * 2 ^ (K + 1) < 2 ^ 63 := by
    calc m * 2 ^ (K + 1) < 2 ^ a * 2 ^ (K + 1) :=
        mul_lt_mul_of_pos_right hm (pow_pos (by norm_num) _)
      _ = 2 ^ (a + (K + 1)) := (pow_add 2 a (K + 1)).symm
      _ ≤ 2 ^ 63 := Nat.pow_le_pow_right (by norm_num) (by omega)
  have hct : (encrypt (Parameters.mk (2 ^ a) (2 ^ b)) m).ct = m * 2 ^ (K + 1) := by
    show m % 2 ^ a * (Parameters.mk (2 ^ a) (2 ^ b)).delta % 2 ^ 64 = _
    rw [Nat.mod_eq_of_lt hm, hdelta]
    exact Nat.mod_eq_of_lt (lt_trans hm63 (by norm_num))
  have hsr : (Parameters.mk (2 ^ a) (2 ^ b)).delta >>> 1 = 2 ^ K := by
    rw [hdelta, Nat.shiftRight_eq_div_pow, pow_one, pow_succ,
      Nat.mul_div_cancel _ (by norm_num)]
  have hd2 : (Parameters.mk (2 ^ a) (2 ^ b)).delta / 2 = 2 ^ K := by
    rw [hdelta, pow_succ, Nat.mul_div_cancel _ (by norm_num)]
  rw [hd2] at he
  have main : ∀ q r : ℕ, q < 2 ^ (63 - K) → r < 2 ^ (K + 1) →
      decrypted_with_noise (encrypt (Parameters.mk (2 ^ a) (2 ^ b)) m) e
        = q * 2 ^ (K + 1) + r →
      (q + r / 2 ^ K) % 2 ^ (63 - K) = m →
      decrypt (Parameters.mk (2 ^ a) (2 ^ b))
          (encrypt (Parameters.mk (2 ^ a) (2 ^ b)) m) e
        = m := by
    intro q r hq hr hD hqr
    show decrypt_message_and_carry (Parameters.mk (2 ^ a) (2 ^ b))
        (encrypt (Parameters.mk (2 ^ a) (2 ^ b)) m) e % 2 ^ a = m
    rw [decrypt_message_and_carry_eq, hD, hsr, hdelta,
      round_core K q r hKb hq hr, hqr, Nat.mod_eq_of_lt hm]
  rcases le_or_lt 0 e with hepos | heneg
  · obtain ⟨n, rfl⟩ := Int.eq_ofNat_of_zero_le hepos
    have hn : n < 2 ^ K := by simpa using he
    have hD : decrypted_with_noise (encrypt (Parameters.mk (2 ^ a) (2 ^ b)) m) (n : ℤ)
        = m * 2 ^ (K + 1) + n := by
      rw [decrypted_with_noise_eq, hct]
      have hlt : m * 2 ^ (K + 1) + n < 2 ^ 64 := by
        have h1 : (2 : ℕ) ^ K < 2 ^ 63 :=
          pow_lt_pow_right₀ (by norm_num) (by omega)
        have h2 : (2 : ℕ) ^ 64 = 2 ^ 63 + 2 ^ 63 := by norm_num
        omega
      have hcast : ((m * 2 ^ (K + 1) : ℕ) : ℤ) + (n : ℤ)
          = ((m * 2 ^ (K + 1) + n : ℕ) : ℤ) := by
        push_cast
        try ring
      rw [hcast, show ((2 : ℤ) ^ 64) = ((2 ^ 64 : ℕ) : ℤ) by push_cast; try ring,
        ← Int.natCast_mod, Int.toNat_natCast]
      exact Nat.mod_eq_of_lt hlt
    refine main m n (lt_of_lt_of_le hm h2a) (lt_trans hn hKK1) hD ?_
    rw [Nat.div_eq_of_lt hn, Nat.add_zero,
      Nat.mod_eq_of_lt (lt_of_lt_of_le hm h2a)]
  · have hne : e = -(e.natAbs : ℤ) := by omega
    set n := e.natAbs with hn_def
    have hn1 : 1 ≤ n := by omega
    have hn : n < 2 ^ K := he
    have hnK1 : n ≤ 2 ^ (K + 1) := by omega
    have hr1 : (2 ^ (K + 1) - n) / 2 ^ K = 1 := by
      have hdouble : (2 : ℕ) ^ (K + 1) = 2 ^ K + 2 ^ K := by
        rw [pow_succ]
        ring
      refine Nat.div_eq_of_lt_le ?_ ?_
      · rw [one_mul]
        omega
      · omega
    have hrlt : 2 ^ (K + 1) - n < 2 ^ (K + 1) :=
      Nat.sub_lt (pow_pos (by norm_num) _) (by omega)
    have hn64 : n < 2 ^ 64 := by
      have : (2 : ℕ) ^ K < 2 ^ 64 := pow_lt_pow_right₀ (by norm_num) (by omega)
      omega
    rcases Nat.eq_zero_or_pos m with rfl | hmpos
    · have hpow64 : (2 : ℕ) ^ (63 - K) * 2 ^ (K + 1) = 2 ^ 64 := by
        rw [← pow_add]
        congr 1
        omega
      have hDv : decrypted_with_noise (encrypt (Parameters.mk (2 ^ a) (2 ^ b)) 0) e
          = 2 ^ 64 - n := by
        rw [decrypted_with_noise_eq, hct, hne]
        have h0 : ((0 * 2 ^ (K + 1) : ℕ) : ℤ) = 0 := by push_cast; ring
        rw [h0, zero_add]
        have h1 : (-(n : ℤ)) % (2 ^ 64 : ℤ)
            = (((2 ^ 64 - n : ℕ) : ℤ) + (2 ^ 64 : ℤ) * (-1)) % (2 ^ 64 : ℤ) := by
          congr 1
          omega
        rw [h1, Int.add_mul_emod_self_left,
          Int.emod_eq_of_lt (Int.natCast_nonneg _) (by
            exact_mod_cast Nat.sub_lt (by positivity) (by omega)),
          Int.toNat_natCast]
      have hsplit : 2 ^ 64 - n
          = (2 ^ (63 - K) - 1) * 2 ^ (K + 1) + (2 ^ (K + 1) - n) := by
        have hsub : ((2 : ℕ) ^ (63 - K) - 1) * 2 ^ (K + 1)
            = 2 ^ 64 - 2 ^ (K + 1) := by
          rw [Nat.sub_mul, one_mul, hpow64]
        have hle : (2 : ℕ) ^ (K + 1) ≤ 2 ^ 64 :=
          Nat.pow_le_pow_right (by norm_num) (by omega)
        omega
      refine main (2 ^ (63 - K) - 1) (2 ^ (K + 1) - n)
        (Nat.sub_lt (pow_pos (by norm_num) _) one_pos) hrlt
        (by rw [hDv, hsplit]) ?_
      rw [hr1, Nat.sub_add_cancel (Nat.one_le_iff_ne_zero.mpr
        (Nat.pos_iff_ne_zero.mp (pow_pos (by norm_num) _))), Nat.mod_self]
    · have hnm : n ≤ m * 2 ^ (K + 1) := by
        have h3 : 2 ^ (K + 1) ≤ m * 2 ^ (K + 1) :=
          Nat.le_mul_of_pos_left _ hmpos
        omega
      have hDv : decrypted_with_noise (encrypt (Parameters.mk (2 ^ a) (2 ^ b)) m) e
          = m * 2 ^ (K + 1) - n := by
        rw [decrypted_with_noise_eq, hct, hne]
        have hcast : ((m * 2 ^ (K + 1) : ℕ) : ℤ) + -(n : ℤ)
            = ((m * 2 ^ (K + 1) - n : ℕ) : ℤ) := by
          push_cast [hnm]
          try ring
        rw [hcast, show ((2 : ℤ) ^ 64) = ((2 ^ 64 : ℕ) : ℤ) by push_cast; try ring,
          ← Int.natCast_mod, Int.toNat_natCast]
        refine Nat.mod_eq_of_lt ?_
        have hs : m * 2 ^ (K + 1) - n ≤ m * 2 ^ (K + 1) := Nat.sub_le _ _
        have h63 : (2 : ℕ) ^ 63 < 2 ^ 64 := by norm_num
        omega
      have hsplit : m * 2 ^ (K + 1) - n
          = (m - 1) * 2 ^ (K + 1) + (2 ^ (K + 1) - n) := by
        have hmul : (m - 1) * 2 ^ (K + 1) = m * 2 ^ (K + 1) - 2 ^ (K + 1) := by
          rw [Nat.sub_mul, one_mul]
        have h3 : 2 ^ (K + 1) ≤ m * 2 ^ (K + 1) :=
          Nat.le_mul_of_pos_left _ hmpos
        omega
      refine main (m - 1) (2 ^ (K + 1) - n)
        (by have := lt_of_lt_of_le hm h2a; omega) hrlt
        (by rw [hDv, hsplit]) ?_
      rw [hr1, show m - 1 + 1 = m by omega,
        Nat.mod_eq_of_lt (lt_of_lt_of_le hm h2a)]

/-- Witness for C3: with message and carry moduli 4 (delta = 2 ^ 59),
decrypting an encryption of 3 under noise -100 returns 3. -/
theorem claim_C3_encrypt_decrypt_round_trip_witness :
    decrypt (Parameters.mk (2 ^ 2) (2 ^ 2))
        (encrypt (Parameters.mk (2 ^ 2) (2 ^ 2)) 3) (-100)
      = 3 :=
  claim_C3_encrypt_decrypt_round_trip 2 2 3 (-100) (by norm_num) (by norm_num)
    (by decide)

end Tfhe

